import Mathlib

/-!
Verification of the biryani-cat admin dashboard's algorithmic core, shallowly
embedded from the two source pages:
* `src/app/admin/Category/AddCategory/page.tsx` — image compression
  (`compressImage`), name normalization (`formatName`), submit validation;
* `src/app/admin/AdminDashboard/page.tsx` — snapshot-listener sorting,
  drag-and-drop reordering (`handleDrop`) and its per-category order writes.

Strings are modelled as `List Char`; JavaScript numbers on the integer-valued
paths are modelled as `Nat` (the JPEG quality, which ranges over
0.9, 0.8, …, 0.1, is modelled in tenths: 9 down to 1).
-/

namespace BiryaniCat

/-- JavaScript `Math.round (n / d)` for natural `n` and positive natural `d`:
round half toward positive infinity, i.e. `⌊n / d + 1 / 2⌋`. -/
def jsRound (n d : Nat) : Nat := (2 * n + d) / (2 * d)

/-- `const MAX_DIM = 1200` in `compressImage`. -/
def MAX_DIM : Nat := 1200

/-- `const TARGET_KB = 500 * 1024` in `compressImage`. -/
def TARGET_KB : Nat := 500 * 1024

/-- The dimension-capping step of `compressImage`:
```
if (width > height && width > MAX_DIM) {
  height = Math.round((height * MAX_DIM) / width); width = MAX_DIM;
} else if (height > MAX_DIM) {
  width = Math.round((width * MAX_DIM) / height); height = MAX_DIM;
}
```
Returns the `(width, height)` pair drawn to the canvas. -/
def capDimensions (w h : Nat) : Nat × Nat :=
  if w > h ∧ w > MAX_DIM then (MAX_DIM, jsRound (h * MAX_DIM) w)
  else if h > MAX_DIM then (jsRound (w * MAX_DIM) h, MAX_DIM)
  else (w, h)

/-- `const byteLength = Math.round((dataUrl.length * 3) / 4)` as a function of
the data-URL string length. -/
def byteLength (len : Nat) : Nat := jsRound (len * 3) 4

/-- The descending-quality loop `tryCompress` of `compressImage`.  `encode q`
models `canvas.toDataURL("image/jpeg", quality).length`, the length of the
data URL produced at quality `q` tenths; the canvas content is fixed before
the loop starts, so the loop's only varying input is the quality.  Returns the
resolved data-URL length together with the quality used for that final
encoding.  The recursion mirrors
```
if (byteLength < TARGET_KB || quality <= 0.1) resolve(dataUrl);
else { quality = Math.max(quality - 0.1, 0.1); setTimeout(tryCompress, 0); }
```
-/
def tryCompress (encode : Nat → Nat) (q : Nat) : Nat × Nat :=
  if byteLength (encode q) < TARGET_KB ∨ q ≤ 1 then (encode q, q)
  else tryCompress encode (max (q - 1) 1)
termination_by q
decreasing_by omega

/-- Number of encodings (`canvas.toDataURL` calls) performed by the
`tryCompress` loop when started at quality `q` tenths. -/
def tryCompressCount (encode : Nat → Nat) (q : Nat) : Nat :=
  if byteLength (encode q) < TARGET_KB ∨ q ≤ 1 then 1
  else 1 + tryCompressCount encode (max (q - 1) 1)
termination_by q
decreasing_by omega

/-- `compressImage` starts the quality search at `let quality = 0.9`
(9 tenths). -/
def compressImage (encode : Nat → Nat) : Nat × Nat := tryCompress encode 9

theorem tryCompress_resolves (encode : Nat → Nat) (q : Nat) :
    byteLength (tryCompress encode q).1 < TARGET_KB ∨
      (tryCompress encode q).2 ≤ 1 := by
  induction q using Nat.strong_induction_on with
  | _ q ih =>
    rw [tryCompress]
    split
    · next h => simpa using h
    · next h => exact ih (max (q - 1) 1) (by omega)

theorem tryCompressCount_le (encode : Nat → Nat) (q : Nat) :
    tryCompressCount encode q ≤ max q 1 := by
  induction q using Nat.strong_induction_on with
  | _ q ih =>
    rw [tryCompressCount]
    split
    · omega
    · next h =>
      have hq : 2 ≤ q := by omega
      have := ih (max (q - 1) 1) (by omega)
      omega

theorem jsRound_le {a b k : Nat} (hb : 0 < b) (h : a ≤ b) : jsRound (a * k) b ≤ k := by
  unfold jsRound
  rw [Nat.div_le_iff_le_mul_add_pred (by omega)]
  have h1 : a * k ≤ b * k := Nat.mul_le_mul_right k h
  have h2 : 2 * b * k = 2 * (b * k) := by ring
  omega

/-- C2: for every input image of width `w` and height `h`, the dimensions
computed by `compressImage` before drawing to the canvas satisfy
`max width height ≤ 1200` whenever the longer input side exceeds 1200, and the
output aspect ratio equals the input aspect ratio up to integer rounding: the
shorter side is `round (shorter * 1200 / longer)`. -/
theorem capDimensions_caps_and_preserves_aspect (w h : Nat)
    (hbig : MAX_DIM < max w h) :
    max (capDimensions w h).1 (capDimensions w h).2 ≤ MAX_DIM ∧
    min (capDimensions w h).1 (capDimensions w h).2 =
      jsRound (min w h * MAX_DIM) (max w h) := by
  unfold capDimensions
  split
  · next h1 =>
    have hmin : min w h = h := Nat.min_eq_right h1.1.le
    have hmax : max w h = w := Nat.max_eq_left h1.1.le
    rw [hmin, hmax]
    have hr : jsRound (h * MAX_DIM) w ≤ MAX_DIM := jsRound_le (by omega) h1.1.le
    constructor
    · simp only [Prod.fst, Prod.snd]; omega
    · simp only [Prod.fst, Prod.snd]; omega
  · split
    · next h1 h2 =>
      have hwh : w ≤ h := by
        rcases Decidable.not_and_iff_or_not.mp h1 with hc | hc <;> omega
      have hmin : min w h = w := Nat.min_eq_left hwh
      have hmax : max w h = h := Nat.max_eq_right hwh
      rw [hmin, hmax]
      have hr : jsRound (w * MAX_DIM) h ≤ MAX_DIM := jsRound_le (by omega) hwh
      constructor
      · simp only [Prod.fst, Prod.snd]; omega
      · simp only [Prod.fst, Prod.snd]; omega
    · next h1 h2 =>
      exfalso
      rcases Decidable.not_and_iff_or_not.mp h1 with hc | hc <;> omega

/-- Witness for C2 at the concrete input 2000 × 1000: the capped dimensions
are (1200, 600). -/
theorem capDimensions_caps_and_preserves_aspect_witness :
    MAX_DIM < max 2000 1000 ∧
    (max (capDimensions 2000 1000).1 (capDimensions 2000 1000).2 ≤ MAX_DIM ∧
     min (capDimensions 2000 1000).1 (capDimensions 2000 1000).2 =
       jsRound (min 2000 1000 * MAX_DIM) (max 2000 1000)) :=
  ⟨by decide, capDimensions_caps_and_preserves_aspect 2000 1000 (by decide)⟩

/-- C1: for every input image (i.e. every possible encoding-size behavior of
`canvas.toDataURL` on the drawn canvas), `compressImage` resolves with a data
URL whose estimated byte size `round (length * 3 / 4)` is at most the 500 KB
target, or the JPEG quality used for the final encoding has reached the floor
0.1 (1 tenth). -/
theorem compressImage_target_or_floor (encode : Nat → Nat) :
    byteLength (compressImage encode).1 ≤ TARGET_KB ∨
      (compressImage encode).2 ≤ 1 := by
  rcases tryCompress_resolves encode 9 with hlt | hfloor
  · exact Or.inl hlt.le
  · exact Or.inr hfloor

/-- C7: the descending-quality search terminates for every input: started at
quality 0.9 (9 tenths), the loop performs at most 9 encodings, and the final
state meets the size target or the quality floor. -/
theorem compressImage_search_bounded (encode : Nat → Nat) :
    tryCompressCount encode 9 ≤ 9 ∧
      (byteLength (compressImage encode).1 < TARGET_KB ∨
        (compressImage encode).2 ≤ 1) :=
  ⟨le_trans (tryCompressCount_le encode 9) (by decide),
   tryCompress_resolves encode 9⟩

/-! ### Name normalization (`formatName`)

```
const formatName = (raw) =>
  raw.trim().replace(/\s+/g, " ").split(" ")
     .map((w) => w.charAt(0).toUpperCase() + w.slice(1).toLowerCase())
     .join(" ");
```
identical in both source pages.  Strings are `List Char`; the per-character
case mappings `upperChar`/`lowerChar` are string-valued, as in JavaScript,
whose `toUpperCase`/`toLowerCase` can expand one character into several
(Unicode special casing, e.g. ß to SS); they are exact on the ASCII range. -/

/-- The whitespace class of the JavaScript regex `\s` (and of `trim`),
restricted to the ASCII range. -/
def jsWs (c : Char) : Bool :=
  c == ' ' || c == '\t' || c == '\n' || c == '\r' || c == '\x0b' || c == '\x0c'

/-- `raw.trim()`: strip leading and trailing whitespace. -/
def jsTrim (s : List Char) : List Char :=
  ((s.dropWhile jsWs).reverse.dropWhile jsWs).reverse

/-- `.replace(/\s+/g, " ")`: each maximal whitespace run becomes one space.
The flag records whether the previous character was whitespace (i.e. whether
we are inside a run already replaced). -/
def collapseWsAux : List Char → Bool → List Char
  | [], _ => []
  | c :: cs, prev =>
    if jsWs c then
      if prev then collapseWsAux cs true else ' ' :: collapseWsAux cs true
    else c :: collapseWsAux cs false

def collapseWs (s : List Char) : List Char := collapseWsAux s false

/-- `.split(" ")` with the JavaScript convention that the result is never
empty (`"".split(" ") = [""]`). -/
def splitSpace : List Char → List (List Char)
  | [] => [[]]
  | c :: cs =>
    if c = ' ' then [] :: splitSpace cs
    else
      match splitSpace cs with
      | [] => [[c]]
      | w :: ws => (c :: w) :: ws

/-- JavaScript `String.prototype.toUpperCase` on a single character: the
Unicode uppercase mapping, which can expand one character into several
(special casing).  On the ASCII range it is exactly the simple a-z to A-Z
mapping; beyond it the model keeps the Latin special casing ß to SS and the
simple mapping `Char.toUpper` elsewhere. -/
def upperChar (c : Char) : List Char :=
  if c = 'ß' then ['S', 'S'] else [Char.toUpper c]

/-- JavaScript `String.prototype.toLowerCase` on a single character.  On the
ASCII range it is exactly the simple A-Z to a-z mapping; beyond it the model
keeps the special casing of İ (capital dotted I) to i plus a combining dot
above, and the simple mapping `Char.toLower` elsewhere. -/
def lowerChar (c : Char) : List Char :=
  if c = 'İ' then ['i', '\u0307'] else [Char.toLower c]

/-- `(w) => w.charAt(0).toUpperCase() + w.slice(1).toLowerCase()`
(`"".charAt(0)` is `""`, so the empty word maps to itself). -/
def capWord : List Char → List Char
  | [] => []
  | c :: cs => upperChar c ++ (cs.map lowerChar).flatten

/-- `.join(" ")`. -/
def joinSpace : List (List Char) → List Char
  | [] => []
  | [w] => w
  | w :: ws => w ++ ' ' :: joinSpace ws

def formatName (s : List Char) : List Char :=
  joinSpace ((splitSpace (collapseWs (jsTrim s))).map capWord)

/-! #### Character-level case lemmas -/

theorem char_toNat_ofNat {n : Nat} (h : n.isValidChar) :
    (Char.ofNat n).toNat = n := by
  rw [Char.ofNat, dif_pos h]
  rfl

theorem toUpper_toNat_of_lower {c : Char} (h97 : 97 ≤ c.toNat)
    (h122 : c.toNat ≤ 122) : (Char.toUpper c).toNat = c.toNat - 32 := by
  have hv : (c.toNat - 32).isValidChar := Or.inl (by omega)
  simp only [Char.toUpper]
  rw [if_pos ⟨h97, h122⟩]
  exact char_toNat_ofNat hv

theorem toUpper_eq_of_not_lower {c : Char}
    (h : ¬(97 ≤ c.toNat ∧ c.toNat ≤ 122)) : Char.toUpper c = c := by
  simp only [Char.toUpper]
  rw [if_neg h]

theorem toLower_toNat_of_upper {c : Char} (h65 : 65 ≤ c.toNat)
    (h90 : c.toNat ≤ 90) : (Char.toLower c).toNat = c.toNat + 32 := by
  have hv : (c.toNat + 32).isValidChar := Or.inl (by omega)
  simp only [Char.toLower]
  rw [if_pos ⟨h65, h90⟩]
  exact char_toNat_ofNat hv

theorem toLower_eq_of_not_upper {c : Char}
    (h : ¬(65 ≤ c.toNat ∧ c.toNat ≤ 90)) : Char.toLower c = c := by
  simp only [Char.toLower]
  rw [if_neg h]

theorem toUpper_toUpper (c : Char) :
    Char.toUpper (Char.toUpper c) = Char.toUpper c := by
  by_cases h : 97 ≤ c.toNat ∧ c.toNat ≤ 122
  · have h1 := toUpper_toNat_of_lower h.1 h.2
    exact toUpper_eq_of_not_lower (by omega)
  · rw [toUpper_eq_of_not_lower h, toUpper_eq_of_not_lower h]

theorem toLower_toLower (c : Char) :
    Char.toLower (Char.toLower c) = Char.toLower c := by
  by_cases h : 65 ≤ c.toNat ∧ c.toNat ≤ 90
  · have h1 := toLower_toNat_of_upper h.1 h.2
    exact toLower_eq_of_not_upper (by omega)
  · rw [toLower_eq_of_not_upper h, toLower_eq_of_not_upper h]

theorem jsWs_toNat {c : Char} (h : jsWs c = true) : c.toNat ≤ 32 := by
  simp only [jsWs, Bool.or_eq_true, beq_iff_eq] at h
  rcases h with ((((h | h) | h) | h) | h) | h <;> subst h <;> decide

theorem jsWs_eq_false_of_toNat {c : Char} (h : 32 < c.toNat) :
    jsWs c = false := by
  cases hc : jsWs c
  · rfl
  · exact absurd (jsWs_toNat hc) (by omega)

theorem jsWs_toUpper (c : Char) : jsWs (Char.toUpper c) = jsWs c := by
  by_cases h : 97 ≤ c.toNat ∧ c.toNat ≤ 122
  · have h1 := toUpper_toNat_of_lower h.1 h.2
    rw [jsWs_eq_false_of_toNat (by omega), jsWs_eq_false_of_toNat (by omega)]
  · rw [toUpper_eq_of_not_lower h]

theorem jsWs_toLower (c : Char) : jsWs (Char.toLower c) = jsWs c := by
  by_cases h : 65 ≤ c.toNat ∧ c.toNat ≤ 90
  · have h1 := toLower_toNat_of_upper h.1 h.2
    rw [jsWs_eq_false_of_toNat (by omega), jsWs_eq_false_of_toNat (by omega)]
  · rw [toLower_eq_of_not_upper h]

theorem ne_space_of_jsWs_false {c : Char} (h : jsWs c = false) : c ≠ ' ' := by
  intro hc
  subst hc
  simp [jsWs] at h

theorem toUpper_toNat_lt {c : Char} (h : c.toNat < 128) :
    (Char.toUpper c).toNat < 128 := by
  by_cases hc : 97 ≤ c.toNat ∧ c.toNat ≤ 122
  · rw [toUpper_toNat_of_lower hc.1 hc.2]
    omega
  · rw [toUpper_eq_of_not_lower hc]
    exact h

theorem toLower_toNat_lt {c : Char} (h : c.toNat < 128) :
    (Char.toLower c).toNat < 128 := by
  by_cases hc : 65 ≤ c.toNat ∧ c.toNat ≤ 90
  · rw [toLower_toNat_of_upper hc.1 hc.2]
    omega
  · rw [toLower_eq_of_not_upper hc]
    exact h

theorem upperChar_ascii {c : Char} (h : c.toNat < 128) :
    upperChar c = [Char.toUpper c] := by
  unfold upperChar
  rw [if_neg]
  intro hc
  rw [hc] at h
  exact absurd h (by decide)

theorem lowerChar_ascii {c : Char} (h : c.toNat < 128) :
    lowerChar c = [Char.toLower c] := by
  unfold lowerChar
  rw [if_neg]
  intro hc
  rw [hc] at h
  exact absurd h (by decide)

theorem upperChar_ne_nil (c : Char) : upperChar c ≠ [] := by
  unfold upperChar
  split <;> simp

theorem upperChar_wsFree {c : Char} (h : jsWs c = false) :
    ∀ x ∈ upperChar c, jsWs x = false := by
  intro x hx
  unfold upperChar at hx
  split at hx
  · rcases List.mem_cons.mp hx with rfl | hx2
    · decide
    · rcases List.mem_singleton.mp hx2 with rfl
      decide
  · rcases List.mem_singleton.mp hx with rfl
    rw [jsWs_toUpper]
    exact h

theorem lowerChar_wsFree {c : Char} (h : jsWs c = false) :
    ∀ x ∈ lowerChar c, jsWs x = false := by
  intro x hx
  unfold lowerChar at hx
  split at hx
  · rcases List.mem_cons.mp hx with rfl | hx2
    · decide
    · rcases List.mem_singleton.mp hx2 with rfl
      decide
  · rcases List.mem_singleton.mp hx with rfl
    rw [jsWs_toLower]
    exact h

theorem flatten_map_singleton {α β : Type} (f : α → β) : ∀ l : List α,
    (l.map fun a => [f a]).flatten = l.map f
  | [] => rfl
  | a :: l => by
    simp only [List.map_cons, List.flatten_cons, List.singleton_append]
    rw [flatten_map_singleton f l]

/-! #### Split / join lemmas -/

theorem splitSpace_ne_nil : ∀ t : List Char, splitSpace t ≠ []
  | [] => by simp [splitSpace]
  | c :: cs => by
    simp only [splitSpace]
    split
    · simp
    · split <;> simp

theorem splitSpace_no_space : ∀ w : List Char,
    (∀ c ∈ w, c ≠ ' ') → splitSpace w = [w]
  | [], _ => rfl
  | c :: cs, h => by
    simp only [splitSpace]
    rw [if_neg (h c (by simp))]
    rw [splitSpace_no_space cs (fun x hx => h x (by simp [hx]))]

theorem splitSpace_word_append (w : List Char) (r : List Char)
    (hw : ∀ c ∈ w, c ≠ ' ') :
    splitSpace (w ++ ' ' :: r) = w :: splitSpace r := by
  induction w with
  | nil => simp [splitSpace]
  | cons c cs ih =>
    simp only [List.cons_append, splitSpace, List.append_eq]
    rw [if_neg (hw c (by simp))]
    rw [ih (fun x hx => hw x (by simp [hx]))]

theorem splitSpace_joinSpace : ∀ ws : List (List Char), ws ≠ [] →
    (∀ w ∈ ws, ∀ c ∈ w, c ≠ ' ') → splitSpace (joinSpace ws) = ws
  | [], h, _ => absurd rfl h
  | [w], _, hw => by
    simp only [joinSpace]
    exact splitSpace_no_space w (hw w (by simp))
  | w :: w' :: ws, _, hw => by
    show splitSpace (w ++ ' ' :: joinSpace (w' :: ws)) = _
    rw [splitSpace_word_append w _ (hw w (by simp))]
    rw [splitSpace_joinSpace (w' :: ws) (by simp)
      (fun x hx => hw x (by simp [hx]))]

/-- A string produced by joining a nonempty whitespace-free word with more
words is nonempty. -/
theorem joinSpace_ne_nil : ∀ (w : List Char) (ws : List (List Char)),
    w ≠ [] → joinSpace (w :: ws) ≠ []
  | w, [], hw => by simpa [joinSpace] using hw
  | w, w' :: ws, hw => by
    show w ++ ' ' :: joinSpace (w' :: ws) ≠ []
    simp

theorem joinSpace_head_nonws : ∀ ws : List (List Char),
    (∀ w ∈ ws, w ≠ [] ∧ ∀ c ∈ w, jsWs c = false) →
    ∀ c, (joinSpace ws).head? = some c → jsWs c = false
  | [], _, c, h => by simp [joinSpace] at h
  | [w], hw, c, h => by
    simp only [joinSpace] at h
    obtain ⟨ys, hys⟩ := List.head?_eq_some_iff.mp h
    exact (hw w (by simp)).2 c (by rw [hys]; simp)
  | w :: w' :: ws, hw, c, h => by
    cases w with
    | nil => exact absurd rfl (hw [] (by simp)).1
    | cons a w0 =>
      have h' : a = c := by
        simpa [joinSpace, List.cons_append] using h
      exact (hw (a :: w0) (by simp)).2 c (by rw [← h']; simp)

theorem joinSpace_getLast_nonws : ∀ ws : List (List Char),
    (∀ w ∈ ws, w ≠ [] ∧ ∀ c ∈ w, jsWs c = false) →
    ∀ c, (joinSpace ws).getLast? = some c → jsWs c = false
  | [], _, c, h => by simp [joinSpace] at h
  | [w], hw, c, h => by
    simp only [joinSpace] at h
    exact (hw w (by simp)).2 c (List.mem_of_mem_getLast? h)
  | w :: w' :: ws, hw, c, h => by
    have hrest : ∀ u ∈ w' :: ws, u ≠ [] ∧ ∀ c ∈ u, jsWs c = false :=
      fun u hu => hw u (by simp [hu])
    apply joinSpace_getLast_nonws (w' :: ws) hrest c
    have hne : joinSpace (w' :: ws) ≠ [] :=
      joinSpace_ne_nil w' ws (hrest w' (by simp)).1
    have hstep : (w ++ ' ' :: joinSpace (w' :: ws)).getLast? =
        (joinSpace (w' :: ws)).getLast? := by
      rw [List.getLast?_append]
      cases hq : joinSpace (w' :: ws) with
      | nil => exact absurd hq hne
      | cons b l =>
        rw [List.getLast?_cons_cons, List.getLast?_eq_getLast (b :: l) (by simp)]
        rfl
    rw [show joinSpace (w :: w' :: ws) = w ++ ' ' :: joinSpace (w' :: ws) from rfl,
      hstep] at h
    exact h

/-! #### Whitespace-collapse lemmas -/

theorem collapseWsAux_word : ∀ (w v : List Char) (b : Bool),
    (∀ c ∈ w, jsWs c = false) → w ≠ [] →
    collapseWsAux (w ++ v) b = w ++ collapseWsAux v false
  | [], _, _, _, h => absurd rfl h
  | c :: cs, v, b, hw, _ => by
    simp only [List.cons_append, collapseWsAux, List.append_eq]
    rw [if_neg (by simp [hw c (by simp)])]
    by_cases hcs : cs = []
    · subst hcs; simp
    · rw [collapseWsAux_word cs v false (fun x hx => hw x (by simp [hx])) hcs]

theorem collapseWsAux_ws_run : ∀ (r v : List Char) (b : Bool),
    (∀ c ∈ r, jsWs c = true) → r ≠ [] →
    collapseWsAux (r ++ v) b =
      (if b then ([] : List Char) else [' ']) ++ collapseWsAux v true
  | [], _, _, _, h => absurd rfl h
  | c :: cs, v, b, hr, _ => by
    simp only [List.cons_append, collapseWsAux, List.append_eq]
    rw [if_pos (hr c (by simp))]
    by_cases hcs : cs = []
    · subst hcs; cases b <;> simp
    · rw [collapseWsAux_ws_run cs v true (fun x hx => hr x (by simp [hx])) hcs]
      cases b <;> simp

theorem collapseWsAux_flag_of_head (v : List Char)
    (h : ∀ c, v.head? = some c → jsWs c = false) :
    collapseWsAux v true = collapseWsAux v false := by
  cases v with
  | nil => rfl
  | cons c cs =>
    simp only [collapseWsAux]
    rw [if_neg (by simp [h c rfl]), if_neg (by simp [h c rfl])]

/-! #### `dropWhile` / `trim` lemmas -/

theorem head?_dropWhile_false {p : Char → Bool} {l : List Char} {c : Char}
    (h : (l.dropWhile p).head? = some c) : p c = false := by
  have hnot := List.head?_dropWhile_not p l
  rw [h] at hnot
  exact hnot

theorem dropWhile_eq_self_of_head {p : Char → Bool} {l : List Char}
    (h : ∀ c, l.head? = some c → p c = false) : l.dropWhile p = l := by
  cases l with
  | nil => rfl
  | cons a l => rw [List.dropWhile_cons_of_neg (by simp [h a rfl])]

theorem getLast?_dropWhile (p : Char → Bool) :
    ∀ (l : List Char) {c : Char}, l.getLast? = some c → p c = false →
    (l.dropWhile p).getLast? = some c
  | [], c, h, _ => by simp at h
  | [a], c, h, hc => by
    simp only [List.getLast?_singleton, Option.some.injEq] at h
    subst h
    rw [List.dropWhile_cons_of_neg (by simp [hc])]
    simp
  | a :: b :: l, c, h, hc => by
    rw [List.getLast?_cons_cons] at h
    by_cases hpa : p a = true
    · rw [List.dropWhile_cons_of_pos hpa]
      exact getLast?_dropWhile p (b :: l) h hc
    · rw [List.dropWhile_cons_of_neg (by simp [hpa])]
      rw [List.getLast?_cons_cons]
      exact h

theorem getLast?_of_dropWhile_getLast? {p : Char → Bool} {l : List Char}
    {c : Char} (h : (l.dropWhile p).getLast? = some c) : l.getLast? = some c := by
  obtain ⟨t, ht⟩ := List.dropWhile_suffix (l := l) p
  rw [← ht, List.getLast?_append, h]
  rfl

theorem jsTrim_head_nonws (s : List Char) {c : Char}
    (h : (jsTrim s).head? = some c) : jsWs c = false := by
  unfold jsTrim at h
  rw [List.head?_reverse] at h
  have h2 := getLast?_of_dropWhile_getLast? h
  rw [List.getLast?_reverse] at h2
  exact head?_dropWhile_false h2

theorem jsTrim_getLast_nonws (s : List Char) {c : Char}
    (h : (jsTrim s).getLast? = some c) : jsWs c = false := by
  unfold jsTrim at h
  rw [List.getLast?_reverse] at h
  exact head?_dropWhile_false h

theorem jsTrim_eq_self (s : List Char)
    (hh : ∀ c, s.head? = some c → jsWs c = false)
    (hl : ∀ c, s.getLast? = some c → jsWs c = false) : jsTrim s = s := by
  unfold jsTrim
  rw [dropWhile_eq_self_of_head hh]
  rw [dropWhile_eq_self_of_head
    (fun c hc => hl c (by rwa [List.head?_reverse] at hc))]
  exact List.reverse_reverse s

/-! #### Word decomposition of a trimmed, collapsed string -/

/-- A word list is good when each word is nonempty and whitespace free. -/
def GoodWords (ws : List (List Char)) : Prop :=
  ∀ w ∈ ws, w ≠ [] ∧ ∀ c ∈ w, jsWs c = false

theorem getLast?_append_right {l1 l2 : List Char} {c : Char}
    (h : l2.getLast? = some c) : (l1 ++ l2).getLast? = some c := by
  rw [List.getLast?_append, h]
  rfl

theorem joinSpace_cons_of_ne_nil (w : List Char) {ws : List (List Char)}
    (h : ws ≠ []) : joinSpace (w :: ws) = w ++ ' ' :: joinSpace ws := by
  cases ws with
  | nil => exact absurd rfl h
  | cons w2 ws => rfl

theorem exists_words_aux : ∀ (n : Nat) (u : List Char), u.length ≤ n →
    (∀ c, u.head? = some c → jsWs c = false) →
    (∀ c, u.getLast? = some c → jsWs c = false) →
    u = [] ∨ ∃ ws, ws ≠ [] ∧ GoodWords ws ∧ collapseWs u = joinSpace ws := by
  intro n
  induction n with
  | zero =>
    intro u hu _ _
    exact Or.inl (List.length_eq_zero.mp (Nat.le_zero.mp hu))
  | succ n ih =>
    intro u hu hh hl
    cases u with
    | nil => exact Or.inl rfl
    | cons a u0 =>
    right
    set p : Char → Bool := fun c => !jsWs c with hp
    have ha : jsWs a = false := hh a rfl
    have hsplit :
        List.takeWhile p (a :: u0) ++ List.dropWhile p (a :: u0) = a :: u0 :=
      List.takeWhile_append_dropWhile p (a :: u0)
    set w := List.takeWhile p (a :: u0) with hwdef
    set v := List.dropWhile p (a :: u0) with hvdef
    have hw_ne : w ≠ [] := by
      rw [hwdef, List.takeWhile_cons_of_pos (by simp [hp, ha])]
      simp
    have hwfree : ∀ c ∈ w, jsWs c = false := by
      intro c hc
      have hc2 := List.mem_takeWhile_imp hc
      simpa [hp] using hc2
    by_cases hv : v = []
    · refine ⟨[w], by simp, ?_, ?_⟩
      · intro x hx
        simp only [List.mem_singleton] at hx
        subst hx
        exact ⟨hw_ne, hwfree⟩
      · have hu_eq : a :: u0 = w := by rw [← hsplit, hv, List.append_nil]
        show collapseWsAux (a :: u0) false = joinSpace [w]
        rw [hu_eq]
        have hcw := collapseWsAux_word w [] false hwfree hw_ne
        rw [List.append_nil] at hcw
        rw [hcw]
        show w ++ collapseWsAux [] false = joinSpace [w]
        simp [collapseWsAux, joinSpace]
    · obtain ⟨d, v0, hv_cons⟩ : ∃ d v0, v = d :: v0 := by
        cases hvc : v with
        | nil => exact absurd hvc hv
        | cons d v0 => exact ⟨d, v0, rfl⟩
      have hd_ws : jsWs d = true := by
        have hdd := head?_dropWhile_false (p := p) (l := a :: u0) (c := d)
          (by rw [← hvdef, hv_cons]; rfl)
        simpa [hp] using hdd
      set r := List.takeWhile jsWs v with hrdef
      set v' := List.dropWhile jsWs v with hv'def
      have hrv : r ++ v' = v := List.takeWhile_append_dropWhile jsWs v
      have hr_ne : r ≠ [] := by
        rw [hrdef, hv_cons, List.takeWhile_cons_of_pos hd_ws]
        simp
      have hrws : ∀ c ∈ r, jsWs c = true := fun c hc => List.mem_takeWhile_imp hc
      by_cases hv'nil : v' = []
      · exfalso
        have hrv' : r = v := by rw [← hrv, hv'nil, List.append_nil]
        obtain ⟨x, hx⟩ : ∃ x, r.getLast? = some x :=
          ⟨r.getLast hr_ne, List.getLast?_eq_getLast r hr_ne⟩
        have hvx : v.getLast? = some x := by rw [← hrv']; exact hx
        have hux : (a :: u0).getLast? = some x := by
          rw [← hsplit]
          exact getLast?_append_right hvx
        have hxf : jsWs x = false := hl x hux
        have hxt : jsWs x = true := hrws x (List.mem_of_mem_getLast? hx)
        simp [hxf] at hxt
      · have hv'_head : ∀ c, v'.head? = some c → jsWs c = false := by
          intro c hc
          exact head?_dropWhile_false (p := jsWs) (l := v) hc
        have hv'_last : ∀ c, v'.getLast? = some c → jsWs c = false := by
          intro c hc
          apply hl
          rw [← hsplit, ← hrv]
          exact getLast?_append_right (getLast?_append_right hc)
        have hlen : v'.length ≤ n := by
          have e1 := congrArg List.length hsplit
          have e2 := congrArg List.length hrv
          simp only [List.length_append, List.length_cons] at e1 e2
          have p1 : 0 < w.length := List.length_pos.mpr hw_ne
          have p2 : 0 < r.length := List.length_pos.mpr hr_ne
          simp only [List.length_cons] at hu
          omega
        rcases ih v' hlen hv'_head hv'_last with hnil | ⟨ws', hws'ne, hgood', heq'⟩
        · exact absurd hnil hv'nil
        · refine ⟨w :: ws', by simp, ?_, ?_⟩
          · intro x hx
            rcases List.mem_cons.mp hx with hx | hx
            · subst hx; exact ⟨hw_ne, hwfree⟩
            · exact hgood' x hx
          · show collapseWsAux (a :: u0) false = _
            rw [← hsplit, ← hrv]
            rw [collapseWsAux_word w (r ++ v') false hwfree hw_ne]
            rw [collapseWsAux_ws_run r v' false hrws hr_ne]
            rw [collapseWsAux_flag_of_head v' hv'_head]
            rw [joinSpace_cons_of_ne_nil w hws'ne]
            rw [← heq']
            show w ++ ((if false then ([] : List Char) else [' ']) ++
              collapseWsAux v' false) = w ++ ' ' :: collapseWs v'
            simp [collapseWs]

/-- The string `jsTrim s` collapses to either the empty string or a
space-join of nonempty whitespace-free words. -/
theorem collapse_trim_words (s : List Char) :
    jsTrim s = [] ∨ ∃ ws, ws ≠ [] ∧ GoodWords ws ∧
      collapseWs (jsTrim s) = joinSpace ws :=
  exists_words_aux (jsTrim s).length (jsTrim s) le_rfl
    (fun _ hc => jsTrim_head_nonws s hc) (fun _ hc => jsTrim_getLast_nonws s hc)

/-! #### `formatName` on an already-normalized string -/

theorem goodWords_no_space {ws : List (List Char)} (h : GoodWords ws) :
    ∀ w ∈ ws, ∀ c ∈ w, c ≠ ' ' :=
  fun w hw c hc => ne_space_of_jsWs_false ((h w hw).2 c hc)

theorem jsTrim_joinSpace {ws : List (List Char)} (h : GoodWords ws) :
    jsTrim (joinSpace ws) = joinSpace ws :=
  jsTrim_eq_self _ (joinSpace_head_nonws ws h) (joinSpace_getLast_nonws ws h)

theorem collapseWs_joinSpace : ∀ ws : List (List Char), GoodWords ws →
    collapseWs (joinSpace ws) = joinSpace ws
  | [], _ => rfl
  | [w], h => by
    show collapseWsAux (joinSpace [w]) false = joinSpace [w]
    simp only [joinSpace]
    have hcw := collapseWsAux_word w [] false (h w (by simp)).2 (h w (by simp)).1
    rw [List.append_nil] at hcw
    rw [hcw]
    simp [collapseWsAux]
  | w :: w2 :: ws, h => by
    have hne : (w2 :: ws) ≠ ([] : List (List Char)) := by simp
    rw [joinSpace_cons_of_ne_nil w hne]
    show collapseWsAux (w ++ ' ' :: joinSpace (w2 :: ws)) false = _
    rw [collapseWsAux_word w (' ' :: joinSpace (w2 :: ws)) false
      (h w (by simp)).2 (h w (by simp)).1]
    have hrun := collapseWsAux_ws_run [' '] (joinSpace (w2 :: ws)) false
      (by intro c hc; simp at hc; subst hc; rfl) (by simp)
    rw [List.singleton_append] at hrun
    rw [hrun]
    have hgood2 : GoodWords (w2 :: ws) := fun x hx => h x (by simp [hx])
    rw [collapseWsAux_flag_of_head _ (joinSpace_head_nonws (w2 :: ws) hgood2)]
    rw [show collapseWsAux (joinSpace (w2 :: ws)) false =
      collapseWs (joinSpace (w2 :: ws)) from rfl]
    rw [collapseWs_joinSpace (w2 :: ws) hgood2]
    simp

theorem capWord_ne_nil {w : List Char} (h : w ≠ []) : capWord w ≠ [] := by
  cases w with
  | nil => exact absurd rfl h
  | cons c cs =>
    show upperChar c ++ (cs.map lowerChar).flatten ≠ []
    cases hu : upperChar c with
    | nil => exact absurd hu (upperChar_ne_nil c)
    | cons a l => simp

theorem map_capWord_good {ws : List (List Char)} (h : GoodWords ws) :
    GoodWords (ws.map capWord) := by
  intro w hw
  rcases List.mem_map.mp hw with ⟨w0, hw0, rfl⟩
  obtain ⟨hne, hfree⟩ := h w0 hw0
  refine ⟨capWord_ne_nil hne, ?_⟩
  cases w0 with
  | nil => exact absurd rfl hne
  | cons c cs =>
    intro x hx
    simp only [capWord] at hx
    rcases List.mem_append.mp hx with hx3 | hx3
    · exact upperChar_wsFree (hfree c (by simp)) x hx3
    · rcases List.mem_flatten.mp hx3 with ⟨l, hl, hxl⟩
      rcases List.mem_map.mp hl with ⟨a, ha, rfl⟩
      exact lowerChar_wsFree (hfree a (by simp [ha])) x hxl

theorem capWord_ascii_cons {c : Char} {cs : List Char}
    (hc : c.toNat < 128) (hcs : ∀ x ∈ cs, x.toNat < 128) :
    capWord (c :: cs) = Char.toUpper c :: cs.map Char.toLower := by
  simp only [capWord]
  rw [upperChar_ascii hc]
  rw [List.map_congr_left (fun a ha => lowerChar_ascii (hcs a ha))]
  rw [flatten_map_singleton]
  rfl

theorem capWord_capWord_ascii {w : List Char} (hw : ∀ c ∈ w, c.toNat < 128) :
    capWord (capWord w) = capWord w := by
  cases w with
  | nil => rfl
  | cons c cs =>
    have hc : c.toNat < 128 := hw c (by simp)
    have hcs : ∀ x ∈ cs, x.toNat < 128 := fun x hx => hw x (by simp [hx])
    rw [capWord_ascii_cons hc hcs]
    rw [capWord_ascii_cons (toUpper_toNat_lt hc)
      (by intro x hx
          rcases List.mem_map.mp hx with ⟨a, ha, rfl⟩
          exact toLower_toNat_lt (hcs a ha))]
    rw [toUpper_toUpper, List.map_map]
    congr 1
    apply List.map_congr_left
    intro a _
    exact toLower_toLower a

theorem mem_of_mem_jsTrim {s : List Char} {c : Char} (h : c ∈ jsTrim s) :
    c ∈ s := by
  unfold jsTrim at h
  rw [List.mem_reverse] at h
  have h2 := (List.dropWhile_suffix (l := (s.dropWhile jsWs).reverse)
    jsWs).sublist.subset h
  rw [List.mem_reverse] at h2
  exact (List.dropWhile_suffix (l := s) jsWs).sublist.subset h2

theorem mem_collapseWsAux : ∀ (u : List Char) (b : Bool) {c : Char},
    c ∈ collapseWsAux u b → c ∈ u ∨ c = ' '
  | [], b, c, h => by simp [collapseWsAux] at h
  | a :: u, b, c, h => by
    simp only [collapseWsAux] at h
    by_cases ha : jsWs a = true
    · rw [if_pos ha] at h
      cases b with
      | true =>
        rw [if_pos rfl] at h
        rcases mem_collapseWsAux u true h with h2 | h2
        · exact Or.inl (List.mem_cons_of_mem a h2)
        · exact Or.inr h2
      | false =>
        rw [if_neg Bool.false_ne_true] at h
        rcases List.mem_cons.mp h with rfl | h2
        · exact Or.inr rfl
        · rcases mem_collapseWsAux u true h2 with h3 | h3
          · exact Or.inl (List.mem_cons_of_mem a h3)
          · exact Or.inr h3
    · rw [if_neg ha] at h
      rcases List.mem_cons.mp h with rfl | h2
      · exact Or.inl (by simp)
      · rcases mem_collapseWsAux u false h2 with h3 | h3
        · exact Or.inl (List.mem_cons_of_mem a h3)
        · exact Or.inr h3

theorem mem_collapseWs {u : List Char} {c : Char} (h : c ∈ collapseWs u) :
    c ∈ u ∨ c = ' ' := mem_collapseWsAux u false h

theorem mem_joinSpace : ∀ (ws : List (List Char)) (w : List Char) {c : Char},
    w ∈ ws → c ∈ w → c ∈ joinSpace ws
  | [], w, c, hw, _ => by simp at hw
  | [v], w, c, hw, hc => by
    simp only [List.mem_singleton] at hw
    subst hw
    simpa [joinSpace] using hc
  | v :: v2 :: ws, w, c, hw, hc => by
    show c ∈ v ++ ' ' :: joinSpace (v2 :: ws)
    rcases List.mem_cons.mp hw with rfl | hw2
    · exact List.mem_append_left _ hc
    · exact List.mem_append_right _
        (List.mem_cons_of_mem _ (mem_joinSpace (v2 :: ws) w hw2 hc))

theorem formatName_joinSpace {ws : List (List Char)} (hne : ws ≠ [])
    (h : GoodWords ws) :
    formatName (joinSpace ws) = joinSpace (ws.map capWord) := by
  unfold formatName
  rw [jsTrim_joinSpace h, collapseWs_joinSpace ws h,
    splitSpace_joinSpace ws hne (goodWords_no_space h)]

theorem formatName_eq_of_words {s : List Char} {ws : List (List Char)}
    (hne : ws ≠ []) (h : GoodWords ws)
    (heq : collapseWs (jsTrim s) = joinSpace ws) :
    formatName s = joinSpace (ws.map capWord) := by
  unfold formatName
  rw [heq, splitSpace_joinSpace ws hne (goodWords_no_space h)]

theorem formatName_idem_ascii_helper (s : List Char)
    (hs : ∀ c ∈ s, c.toNat < 128) :
    formatName (formatName s) = formatName s := by
  rcases collapse_trim_words s with h0 | ⟨ws, hne, hgood, heq⟩
  · have hfs : formatName s = [] := by
      unfold formatName
      rw [h0]
      rfl
    rw [hfs]
    rfl
  · have hws_ascii : ∀ w ∈ ws, ∀ c ∈ w, c.toNat < 128 := by
      intro w hw c hc
      have hcj : c ∈ collapseWs (jsTrim s) := by
        rw [heq]
        exact mem_joinSpace ws w hw hc
      rcases mem_collapseWs hcj with h2 | h2
      · exact hs c (mem_of_mem_jsTrim h2)
      · exfalso
        have h3 := (hgood w hw).2 c hc
        rw [h2] at h3
        exact absurd h3 (by decide)
    have h1 : formatName s = joinSpace (ws.map capWord) :=
      formatName_eq_of_words hne hgood heq
    have hgood2 : GoodWords (ws.map capWord) := map_capWord_good hgood
    have hne2 : ws.map capWord ≠ [] := by simpa using hne
    rw [h1, formatName_joinSpace hne2 hgood2]
    congr 1
    rw [List.map_map]
    apply List.map_congr_left
    intro w hw
    exact capWord_capWord_ascii (hws_ascii w hw)

theorem formatName_ne_nil_helper {s : List Char} (h : jsTrim s ≠ []) :
    formatName s ≠ [] := by
  rcases collapse_trim_words s with h0 | ⟨ws, hne, hgood, heq⟩
  · exact absurd h0 h
  · obtain ⟨w, ws0, rfl⟩ : ∃ w ws0, ws = w :: ws0 := by
      cases ws with
      | nil => exact absurd rfl hne
      | cons w ws0 => exact ⟨w, ws0, rfl⟩
    rw [formatName_eq_of_words hne hgood heq]
    show joinSpace (capWord w :: ws0.map capWord) ≠ []
    apply joinSpace_ne_nil
    exact capWord_ne_nil (hgood w (by simp)).1

/-- The dashboard snapshot listener's name field,
`name: data.name ? formatName(data.name) : "Unnamed"`; `undefined` (`none`)
and the empty string are falsy in JavaScript. -/
def displayName (stored : Option (List Char)) : List Char :=
  match stored with
  | none => "Unnamed".toList
  | some s => if s = [] then "Unnamed".toList else formatName s

/-- C4 counterexample: `formatName` is not idempotent on every input string,
because JavaScript `toUpperCase` applies the Unicode special casing ß to SS:
`formatName "ß" = "SS"` but `formatName "SS" = "Ss"`. -/
theorem formatName_not_idempotent_eszett :
    formatName (formatName ['ß']) ≠ formatName ['ß'] := by decide

/-- C4 amended: `formatName` is idempotent on every input string of ASCII
characters (code points below 128), where the JavaScript case mappings are
the simple single-character ones: `formatName (formatName s) = formatName s`. -/
theorem formatName_idempotent_ascii (s : List Char)
    (hs : ∀ c ∈ s, c.toNat < 128) :
    formatName (formatName s) = formatName s :=
  formatName_idem_ascii_helper s hs

/-- Witness for the amended C4 at a concrete ASCII string. -/
theorem formatName_idempotent_ascii_witness :
    (∀ c ∈ "  biryani HOUSE ".toList, c.toNat < 128) ∧
    formatName (formatName "  biryani HOUSE ".toList) =
      formatName "  biryani HOUSE ".toList :=
  ⟨by decide, formatName_idempotent_ascii "  biryani HOUSE ".toList (by decide)⟩

/-- C8: every category name is non-empty after normalization: the AddCategory
submit path rejects a name whose trim is empty and stores `formatName name`,
so the stored name is non-empty; the dashboard listener substitutes
"Unnamed" for an absent name and otherwise re-formats the stored name, so the
displayed name is non-empty as well. -/
theorem categoryName_nonempty (raw : List Char) (h : jsTrim raw ≠ []) :
    formatName raw ≠ [] ∧ displayName (some (formatName raw)) ≠ [] ∧
      displayName none ≠ [] := by
  have hjoin_ne : ∀ vs : List (List Char), vs ≠ [] → GoodWords vs →
      joinSpace vs ≠ [] := by
    intro vs hvs hgvs
    cases vs with
    | nil => exact absurd rfl hvs
    | cons v vs0 => exact joinSpace_ne_nil v vs0 (hgvs v (by simp)).1
  rcases collapse_trim_words raw with h0 | ⟨ws, hne, hgood, heq⟩
  · exact absurd h0 h
  · have h1 : formatName raw = joinSpace (ws.map capWord) :=
      formatName_eq_of_words hne hgood heq
    have hgood2 : GoodWords (ws.map capWord) := map_capWord_good hgood
    have hne2 : ws.map capWord ≠ [] := by simpa using hne
    have hfne : formatName raw ≠ [] := by
      rw [h1]
      exact hjoin_ne _ hne2 hgood2
    refine ⟨hfne, ?_, by decide⟩
    show (if formatName raw = [] then "Unnamed".toList
      else formatName (formatName raw)) ≠ []
    rw [if_neg hfne, h1, formatName_joinSpace hne2 hgood2]
    exact hjoin_ne _ (by simpa using hne2) (map_capWord_good hgood2)

/-- Witness for C8 at the concrete raw name `"  biryani  house "`. -/
theorem categoryName_nonempty_witness :
    jsTrim "  biryani  house ".toList ≠ [] ∧
    (formatName "  biryani  house ".toList ≠ [] ∧
      displayName (some (formatName "  biryani  house ".toList)) ≠ [] ∧
      displayName none ≠ []) :=
  ⟨by decide, categoryName_nonempty "  biryani  house ".toList (by decide)⟩

/-! ### Dashboard data model and snapshot-listener sorting

From `src/app/admin/AdminDashboard/page.tsx`. -/

/-- The `Category` record held in dashboard state.  `createdAt` is the
creation timestamp in milliseconds (`Timestamp.toMillis`); absent document
fields are `none`. -/
structure Category where
  id : String
  name : List Char
  imageUrl : Option (List Char)
  createdAt : Option Nat
  order : Option Nat
deriving DecidableEq

/-- `a.createdAt?.toMillis() ?? 0`. -/
def timeOf (c : Category) : Nat := c.createdAt.getD 0

/-- The snapshot-listener comparator of the dashboard, as the Boolean
relation "the comparator value is nonpositive", i.e. `a` may be placed
before `b`:
```
const aOrder = a.order ?? Infinity;  const bOrder = b.order ?? Infinity;
if (aOrder !== bOrder) return aOrder - bOrder;
return (b.createdAt?.toMillis() ?? 0) - (a.createdAt?.toMillis() ?? 0);
```
A missing `order` compares as `Infinity`; two missing orders compare equal
(`Infinity === Infinity`), falling through to the timestamp branch. -/
def catLE (a b : Category) : Bool :=
  match a.order, b.order with
  | some x, some y =>
    if x = y then decide (timeOf b ≤ timeOf a) else decide (x < y)
  | some _, none => true
  | none, some _ => false
  | none, none => decide (timeOf b ≤ timeOf a)

/-- `fetched.sort(comparator)`: the listener's sort of the fetched category
list, modelled by a sort with respect to `catLE`. -/
def sortCats (l : List Category) : List Category := l.mergeSort catLE

/-- The ordering described by the specification: ascending by the `order`
field, categories lacking `order` after all ordered ones, and ties (equal or
both-missing order values) ranked by creation time, most recent first. -/
def specLE (a b : Category) : Prop :=
  match a.order, b.order with
  | some x, some y => x < y ∨ (x = y ∧ timeOf b ≤ timeOf a)
  | some _, none => True
  | none, some _ => False
  | none, none => timeOf b ≤ timeOf a

theorem catLE_trans (a b c : Category) (hab : catLE a b = true)
    (hbc : catLE b c = true) : catLE a c = true := by
  cases ha : a.order with
  | none =>
    cases hb : b.order with
    | none =>
      cases hc : c.order with
      | none =>
        simp only [catLE, ha, hb, decide_eq_true_eq] at hab
        simp only [catLE, hb, hc, decide_eq_true_eq] at hbc
        simp only [catLE, ha, hc, decide_eq_true_eq]
        omega
      | some z =>
        simp only [catLE, hb, hc] at hbc
        exact absurd hbc Bool.false_ne_true
    | some y =>
      simp only [catLE, ha, hb] at hab
      exact absurd hab Bool.false_ne_true
  | some x =>
    cases hc : c.order with
    | none => simp only [catLE, ha, hc]
    | some z =>
      cases hb : b.order with
      | none =>
        simp only [catLE, hb, hc] at hbc
        exact absurd hbc Bool.false_ne_true
      | some y =>
        simp only [catLE, ha, hb] at hab
        simp only [catLE, hb, hc] at hbc
        simp only [catLE, ha, hc]
        by_cases hxy : x = y
        · subst hxy
          rw [if_pos rfl] at hab
          simp only [decide_eq_true_eq] at hab
          by_cases hxz : x = z
          · subst hxz
            rw [if_pos rfl] at hbc ⊢
            simp only [decide_eq_true_eq] at hbc ⊢
            omega
          · rw [if_neg hxz] at hbc ⊢
            exact hbc
        · rw [if_neg hxy] at hab
          simp only [decide_eq_true_eq] at hab
          by_cases hyz : y = z
          · subst hyz
            rw [if_neg hxy]
            simp only [decide_eq_true_eq]
            exact hab
          · rw [if_neg hyz] at hbc
            simp only [decide_eq_true_eq] at hbc
            have hxz : x ≠ z := by omega
            rw [if_neg hxz]
            simp only [decide_eq_true_eq]
            omega

theorem catLE_total (a b : Category) : catLE a b || catLE b a := by
  cases ha : a.order with
  | none =>
    cases hb : b.order with
    | none =>
      simp only [catLE, ha, hb, Bool.or_eq_true, decide_eq_true_eq]
      omega
    | some y => simp [catLE, ha, hb]
  | some x =>
    cases hb : b.order with
    | none => simp [catLE, ha, hb]
    | some y =>
      simp only [catLE, ha, hb]
      by_cases hxy : x = y
      · subst hxy
        rw [if_pos rfl, if_pos rfl]
        simp only [Bool.or_eq_true, decide_eq_true_eq]
        omega
      · rw [if_neg hxy, if_neg (fun h => hxy h.symm)]
        simp only [Bool.or_eq_true, decide_eq_true_eq]
        omega

theorem catLE_imp_specLE (a b : Category) (h : catLE a b = true) :
    specLE a b := by
  cases ha : a.order with
  | none =>
    cases hb : b.order with
    | none =>
      simp only [catLE, ha, hb, decide_eq_true_eq] at h
      simpa only [specLE, ha, hb] using h
    | some y =>
      simp only [catLE, ha, hb] at h
      exact absurd h Bool.false_ne_true
  | some x =>
    cases hb : b.order with
    | none => simp only [specLE, ha, hb]
    | some y =>
      simp only [catLE, ha, hb] at h
      simp only [specLE, ha, hb]
      by_cases hxy : x = y
      · subst hxy
        rw [if_pos rfl] at h
        simp only [decide_eq_true_eq] at h
        exact Or.inr ⟨rfl, h⟩
      · rw [if_neg hxy] at h
        simp only [decide_eq_true_eq] at h
        exact Or.inl h

/-- C9: the category list produced by the snapshot listener is a permutation
of the fetched documents, sorted ascending by the `order` field, with
categories lacking an `order` field after all ordered ones, and ties (equal
or both-missing order) ranked by creation time, most recent first. -/
theorem sortCats_sorted (l : List Category) :
    (sortCats l).Perm l ∧ (sortCats l).Pairwise specLE :=
  ⟨List.mergeSort_perm l catLE,
   List.Pairwise.imp (fun hab => catLE_imp_specLE _ _ hab)
     (List.sorted_mergeSort (fun a b c => catLE_trans a b c) catLE_total l)⟩

/-! ### Drag-and-drop reordering (`handleDrop`) -/

/-- `arr.splice(i, 1)`: remove the element at index `i`. -/
def removeAt {α : Type} (l : List α) (i : Nat) : List α :=
  l.take i ++ l.drop (i + 1)

/-- `arr.splice(j, 0, a)`: insert `a` at index `j` (appending at the end when
`j` exceeds the length, as `splice` does). -/
def insertAt {α : Type} (l : List α) (j : Nat) (a : α) : List α :=
  l.take j ++ a :: l.drop j

/-- The splice pair of `handleDrop`:
```
const [moved] = newCategories.splice(draggedIndex, 1);
newCategories.splice(dropIndex, 0, moved);
```
`none` when the dragged index is out of range (`moved` would then be
`undefined`). -/
def reorder {α : Type} (l : List α) (i j : Nat) : Option (List α) :=
  match l[i]? with
  | none => none
  | some a => some (insertAt (removeAt l i) j a)

/-- The write batch
`newCategories.map((cat, idx) => updateDoc(doc(db, "categories", cat.id), { order: idx }))`
as `(document id, new order value)` pairs, in list order. -/
def orderWrites (l : List Category) : List (String × Nat) :=
  l.enum.map fun p => ((p.2).id, p.1)

/-- One invocation of `handleDrop(e, dropIndex)` as a function of the current
state and of which writes succeed.  Returns `none` when the dragged index is
out of range, otherwise `some (finalCategories, writesIssued, errorLogged)`:
the final `categories` state (set optimistically before the writes are
awaited and never changed afterwards), the single batch of order writes, and
whether the catch block (`console.error`) ran.  The catch block does nothing
else: no rollback write, no retry. -/
def handleDropRun (cats : List Category) (draggedIndex : Option Nat)
    (dropIndex : Nat) (writeOk : String × Nat → Bool) :
    Option (List Category × List (String × Nat) × Bool) :=
  match draggedIndex with
  | none => some (cats, [], false)
  | some i =>
    if i = dropIndex then some (cats, [], false)
    else
      match reorder cats i dropIndex with
      | none => none
      | some newCategories =>
        some (newCategories, orderWrites newCategories,
          !(orderWrites newCategories).all writeOk)

theorem removeAt_length {α : Type} (l : List α) (i : Nat) (h : i < l.length) :
    (removeAt l i).length = l.length - 1 := by
  simp only [removeAt, List.length_append, List.length_take, List.length_drop]
  omega

theorem cons_removeAt_perm {α : Type} (l : List α) (i : Nat)
    (h : i < l.length) : (l[i] :: removeAt l i).Perm l := by
  unfold removeAt
  have h1 : l.take i ++ l[i] :: l.drop (i + 1) = l := by
    rw [List.getElem_cons_drop l i h]
    exact List.take_append_drop i l
  have h2 : (l[i] :: (l.take i ++ l.drop (i + 1))).Perm
      (l.take i ++ l[i] :: l.drop (i + 1)) := List.perm_middle.symm
  rwa [h1] at h2

theorem insertAt_perm {α : Type} (m : List α) (j : Nat) (a : α) :
    (insertAt m j a).Perm (a :: m) := by
  unfold insertAt
  have h2 : (m.take j ++ a :: m.drop j).Perm (a :: (m.take j ++ m.drop j)) :=
    List.perm_middle
  rwa [List.take_append_drop] at h2

theorem insertAt_getElem? {α : Type} (m : List α) (j : Nat) (a : α)
    (h : j ≤ m.length) : (insertAt m j a)[j]? = some a := by
  unfold insertAt
  have h1 : (m.take j).length = j := by
    simp only [List.length_take]
    omega
  rw [List.getElem?_append_right (by omega)]
  rw [h1]
  simp

theorem removeAt_insertAt {α : Type} (m : List α) (j : Nat) (a : α)
    (h : j ≤ m.length) : removeAt (insertAt m j a) j = m := by
  unfold removeAt insertAt
  have h1 : (m.take j).length = j := by
    simp only [List.length_take]
    omega
  rw [List.take_left' h1]
  rw [← List.drop_drop 1 j]
  rw [List.drop_left' h1]
  rw [List.drop_succ_cons, List.drop_zero]
  exact List.take_append_drop j m

theorem map_fst_enumFrom {α : Type} : ∀ (n : Nat) (l : List α),
    (List.enumFrom n l).map Prod.fst = List.range' n l.length
  | _, [] => rfl
  | n, a :: l => by
    simp only [List.enumFrom, List.map_cons, List.length_cons,
      List.range'_succ]
    rw [map_fst_enumFrom (n + 1) l]

theorem map_snd_enumFrom {α : Type} : ∀ (n : Nat) (l : List α),
    (List.enumFrom n l).map Prod.snd = l
  | _, [] => rfl
  | n, a :: l => by
    simp only [List.enumFrom, List.map_cons]
    rw [map_snd_enumFrom (n + 1) l]

theorem orderWrites_map_snd (nl : List Category) :
    (orderWrites nl).map Prod.snd = List.range nl.length := by
  unfold orderWrites
  rw [List.map_map]
  rw [show (Prod.snd ∘ fun p : Nat × Category => ((p.2).id, p.1)) = Prod.fst
    from rfl]
  rw [show nl.enum = List.enumFrom 0 nl from rfl, map_fst_enumFrom,
    List.range_eq_range']

theorem orderWrites_map_fst (nl : List Category) :
    (orderWrites nl).map Prod.fst = nl.map Category.id := by
  unfold orderWrites
  rw [List.map_map]
  rw [show (Prod.fst ∘ fun p : Nat × Category => ((p.2).id, p.1)) =
    (Category.id ∘ Prod.snd) from rfl]
  rw [← List.map_map, show nl.enum = List.enumFrom 0 nl from rfl,
    map_snd_enumFrom]

theorem orderWrites_length (nl : List Category) :
    (orderWrites nl).length = nl.length := by
  unfold orderWrites
  rw [List.length_map, show nl.enum = List.enumFrom 0 nl from rfl,
    List.enumFrom_length]

/-- C3: reordering the category list from source index `i` to drop index `j`
(`i ≠ j`, both in bounds) produces a permutation of the original list in
which the moved item is at position `j` and, removing the moved item again,
the remaining items stand exactly as they did before the move, i.e. every
pair of other items keeps its relative order. -/
theorem reorder_perm_moved {α : Type} (l : List α) (i j : Nat)
    (hi : i < l.length) (hj : j < l.length) (hij : i ≠ j) :
    ∃ nl, reorder l i j = some nl ∧ nl.Perm l ∧ nl[j]? = l[i]? ∧
      removeAt nl j = removeAt l i := by
  have hget : l[i]? = some l[i] := List.getElem?_eq_getElem hi
  have hjle : j ≤ (removeAt l i).length := by
    rw [removeAt_length l i hi]
    omega
  refine ⟨insertAt (removeAt l i) j l[i], ?_, ?_, ?_, ?_⟩
  · unfold reorder
    rw [hget]
  · exact (insertAt_perm (removeAt l i) j l[i]).trans (cons_removeAt_perm l i hi)
  · rw [insertAt_getElem? (removeAt l i) j l[i] hjle, hget]
  · exact removeAt_insertAt (removeAt l i) j l[i] hjle

/-- Witness for C3: moving index 0 to index 2 in `[10, 20, 30]`. -/
theorem reorder_perm_moved_witness :
    (0 < ([10, 20, 30] : List Nat).length ∧ 2 < ([10, 20, 30] : List Nat).length ∧
      (0 : Nat) ≠ 2) ∧
    (∃ nl, reorder ([10, 20, 30] : List Nat) 0 2 = some nl ∧
      nl.Perm [10, 20, 30] ∧ nl[2]? = ([10, 20, 30] : List Nat)[0]? ∧
      removeAt nl 2 = removeAt ([10, 20, 30] : List Nat) 0) :=
  ⟨⟨by decide, by decide, by decide⟩,
   reorder_perm_moved [10, 20, 30] 0 2 (by decide) (by decide) (by decide)⟩

/-- C5: after a reorder of `N` categories, exactly one write per category is
issued; the write for the category at new position `idx` sets its `order`
field to `idx`, so the persisted order values are exactly `0 .. N-1`. -/
theorem handleDrop_writes_dense (cats : List Category) (i j : Nat)
    (writeOk : String × Nat → Bool)
    (hi : i < cats.length) (hj : j < cats.length) (hij : i ≠ j) :
    ∃ nl e, handleDropRun cats (some i) j writeOk =
        some (nl, orderWrites nl, e) ∧
      (orderWrites nl).length = cats.length ∧
      (orderWrites nl).map Prod.snd = List.range cats.length ∧
      (orderWrites nl).map Prod.fst = nl.map Category.id := by
  have hget : cats[i]? = some cats[i] := List.getElem?_eq_getElem hi
  have hre : reorder cats i j = some (insertAt (removeAt cats i) j cats[i]) := by
    unfold reorder
    rw [hget]
  have hperm : (insertAt (removeAt cats i) j cats[i]).Perm cats :=
    (insertAt_perm (removeAt cats i) j cats[i]).trans (cons_removeAt_perm cats i hi)
  have hlen : (insertAt (removeAt cats i) j cats[i]).length = cats.length :=
    hperm.length_eq
  refine ⟨insertAt (removeAt cats i) j cats[i],
    !(orderWrites (insertAt (removeAt cats i) j cats[i])).all writeOk,
    ?_, ?_, ?_, ?_⟩
  · simp only [handleDropRun]
    rw [if_neg hij, hre]
  · rw [orderWrites_length, hlen]
  · rw [orderWrites_map_snd, hlen]
  · exact orderWrites_map_fst _

/-- Witness for C5 on three concrete categories, moving index 0 to index 2. -/
theorem handleDrop_writes_dense_witness :
    (0 < ([⟨"a", [], none, none, none⟩, ⟨"b", [], none, none, none⟩,
        ⟨"c", [], none, none, none⟩] : List Category).length ∧
     2 < ([⟨"a", [], none, none, none⟩, ⟨"b", [], none, none, none⟩,
        ⟨"c", [], none, none, none⟩] : List Category).length ∧ (0 : Nat) ≠ 2) ∧
    (∃ nl e, handleDropRun
        [⟨"a", [], none, none, none⟩, ⟨"b", [], none, none, none⟩,
          ⟨"c", [], none, none, none⟩] (some 0) 2 (fun _ => true) =
        some (nl, orderWrites nl, e) ∧
      (orderWrites nl).length = 3 ∧
      (orderWrites nl).map Prod.snd = List.range 3 ∧
      (orderWrites nl).map Prod.fst = nl.map Category.id) :=
  ⟨⟨by decide, by decide, by decide⟩,
   handleDrop_writes_dense
     [⟨"a", [], none, none, none⟩, ⟨"b", [], none, none, none⟩,
       ⟨"c", [], none, none, none⟩] 0 2 (fun _ => true)
     (by decide) (by decide) (by decide)⟩

/-- C6: when any of the order writes fails, the only effect is the error
flag (`console.error`): the final `categories` state is still the
optimistically reordered list `nl`, the writes issued are the single batch
`orderWrites nl`, and nothing is rolled back or retried. -/
theorem handleDrop_write_failure (cats : List Category) (i j : Nat)
    (writeOk : String × Nat → Bool) (nl : List Category)
    (hij : i ≠ j) (hre : reorder cats i j = some nl)
    (hfail : (orderWrites nl).all writeOk = false) :
    handleDropRun cats (some i) j writeOk = some (nl, orderWrites nl, true) := by
  simp only [handleDropRun]
  rw [if_neg hij, hre]
  show some (nl, orderWrites nl, !(orderWrites nl).all writeOk) =
    some (nl, orderWrites nl, true)
  rw [hfail]
  rfl

/-- Witness for C6: two categories, drag 0 onto 1, every write failing. -/
theorem handleDrop_write_failure_witness :
    ((0 : Nat) ≠ 1 ∧
      reorder [(⟨"a", [], none, none, none⟩ : Category),
        ⟨"b", [], none, none, none⟩] 0 1 =
        some [⟨"b", [], none, none, none⟩, ⟨"a", [], none, none, none⟩] ∧
      (orderWrites [⟨"b", [], none, none, none⟩,
        ⟨"a", [], none, none, none⟩]).all (fun _ => false) = false) ∧
    handleDropRun [⟨"a", [], none, none, none⟩, ⟨"b", [], none, none, none⟩]
        (some 0) 1 (fun _ => false) =
      some ([⟨"b", [], none, none, none⟩, ⟨"a", [], none, none, none⟩],
        orderWrites [⟨"b", [], none, none, none⟩, ⟨"a", [], none, none, none⟩],
        true) :=
  ⟨⟨by decide, by decide, by decide⟩,
   handleDrop_write_failure
     [⟨"a", [], none, none, none⟩, ⟨"b", [], none, none, none⟩] 0 1
     (fun _ => false)
     [⟨"b", [], none, none, none⟩, ⟨"a", [], none, none, none⟩]
     (by decide) (by decide) (by decide)⟩

/-- C10: `handleDrop` is a no-op when no drag is in progress or the drop
target equals the drag source: the categories state is unchanged and no
order writes are issued (and no error is logged). -/
theorem handleDrop_noop (cats : List Category) (draggedIndex : Option Nat)
    (dropIndex : Nat) (writeOk : String × Nat → Bool)
    (h : draggedIndex = none ∨ draggedIndex = some dropIndex) :
    handleDropRun cats draggedIndex dropIndex writeOk = some (cats, [], false) := by
  rcases h with h | h
  · subst h
    rfl
  · subst h
    simp [handleDropRun]

/-- Witness for C10: dropping at the drag source index 3. -/
theorem handleDrop_noop_witness :
    ((some 3 : Option Nat) = none ∨ (some 3 : Option Nat) = some 3) ∧
    handleDropRun [⟨"a", [], none, none, none⟩] (some 3) 3 (fun _ => true) =
      some ([⟨"a", [], none, none, none⟩], [], false) :=
  ⟨Or.inr rfl,
   handleDrop_noop [⟨"a", [], none, none, none⟩] (some 3) 3 (fun _ => true)
     (Or.inr rfl)⟩

end BiryaniCat
